import Mathlib

/-!
Verification of `myr::chunk_vector<T, Allocator, ChunkSize>` from
`src/include/mastermyr/chunk_vector.hpp`.

The container stores elements in fixed-size chunks of `ChunkSize` raw slots,
whose addresses are kept in an ordered directory `m_chunks`
(`std::vector<pointer>`).  The custom iterator locates logical index `i` at
`m_data[i / ChunkSize][i % ChunkSize]`; since `(c, o) ↦ c * ChunkSize + o` is
the inverse of that decomposition, the chunked slot storage is modelled here
as a single flat slot list `store`, with slot `i` standing for chunk
`i / ChunkSize`, offset `i % ChunkSize`.  Chunk addresses are modelled as
abstract naturals drawn from an allocator counter `ctr`: every allocation
returns the current counter value as the fresh chunk address and bumps the
counter, so distinct allocations have distinct addresses.

Raw (not yet constructed) slots physically exist in the C++ object; the model
keeps them in `store` holding the junk value `default`.  Element types are
modelled as plain values (the claims instantiate them with `int`), which are
trivially destructible, matching the only element category for which the
erase paths of the source even instantiate (their destructor branches contain
the ill-formed expressions `*pos.~value_type()` / `*it.~value_type()`, and
are discarded by `if constexpr` exactly for trivially destructible types).

`size_t` arithmetic is modelled as `Nat` where no overflow can occur, and
explicitly modulo `2 ^ 64` in `reserve`, whose loop counter underflows.
Functions of the source that need not terminate (`reserve`, range `erase`)
are modelled with explicit fuel and return `none` when the fuel runs out, so
non-termination of the C++ loop appears as `= none` for every fuel.
-/

namespace myr

/-- detail::is_powerof2: `v && ((v & (v - 1)) == 0)` (the `static_assert`
constraint on `ChunkSize`). -/
def is_powerof2 (v : Nat) : Bool :=
  decide (v ≠ 0) && decide (v &&& (v - 1) = 0)

/-- State of a `chunk_vector`: `m_chunks` is the chunk directory (the chunk
addresses in order), `store` the flattened slot contents of those chunks
(slot `i` = chunk `i / cs`, offset `i % cs`), `m_size` the number of
constructed elements (slots `[0, m_size)`). -/
structure chunk_vector (α : Type) where
  m_chunks : List Nat
  store : List α
  m_size : Nat
  deriving DecidableEq

variable {α : Type}

/-- size(): returns m_size. -/
def size (v : chunk_vector α) : Nat := v.m_size

/-- capacity(): `m_chunks.size() * ChunkSize`. -/
def capacity (cs : Nat) (v : chunk_vector α) : Nat := v.m_chunks.length * cs

/-- The constructed elements in logical order: slots `[0, m_size)`. -/
def elems (v : chunk_vector α) : List α := v.store.take v.m_size

/-- add_chunk(): allocate one chunk of `cs` raw slots (address = current
counter value) and push its address onto the directory. -/
def add_chunk (cs : Nat) [Inhabited α] (v : chunk_vector α) (ctr : Nat) :
    chunk_vector α × Nat :=
  (⟨v.m_chunks ++ [ctr], v.store ++ List.replicate cs default, v.m_size⟩, ctr + 1)

/-- maybe_increase_capacity(): `if (m_size == capacity()) add_chunk();`. -/
def maybe_increase_capacity (cs : Nat) [Inhabited α] (v : chunk_vector α)
    (ctr : Nat) : chunk_vector α × Nat :=
  if size v = capacity cs v then add_chunk cs v ctr else (v, ctr)

/-- operator[] read: `*(begin() + n)` = `m_data[n / cs][n % cs]`, i.e. flat
slot `n`. -/
def getIdx [Inhabited α] (v : chunk_vector α) (n : Nat) : α :=
  v.store.getD n default

/-- at(pos): `if (pos >= size()) throw std::out_of_range(...); return
operator[](pos);`.  The thrown exception is modelled as `none`; `at` reads
the container and does not modify it. -/
def atIdx [Inhabited α] (v : chunk_vector α) (pos : Nat) : Option α :=
  if pos ≥ size v then none else some (getIdx v pos)

/-- push_back(v) / emplace_back(args...): ensure capacity, write the new
element into slot `m_size`, increment `m_size`.  (push_back assigns through
`operator[](m_size)`, emplace_back placement-news into the same slot; both
leave the same slot contents.) -/
def push_back (cs : Nat) [Inhabited α] (v : chunk_vector α) (ctr : Nat)
    (x : α) : chunk_vector α × Nat :=
  let p := maybe_increase_capacity cs v ctr
  (⟨p.1.m_chunks, p.1.store.set p.1.m_size x, p.1.m_size + 1⟩, p.2)

/-- emplace_back: same state transformation as push_back (in-place
construction at slot `m_size`, then `++m_size`). -/
def emplace_back (cs : Nat) [Inhabited α] (v : chunk_vector α) (ctr : Nat)
    (x : α) : chunk_vector α × Nat :=
  let p := maybe_increase_capacity cs v ctr
  (⟨p.1.m_chunks, p.1.store.set p.1.m_size x, p.1.m_size + 1⟩, p.2)

/-- pop_back(): no-op when empty, otherwise destroy the last element (no
value-level effect; the slot keeps its bytes) and decrement `m_size`. -/
def pop_back (v : chunk_vector α) : chunk_vector α :=
  if v.m_size = 0 then v else ⟨v.m_chunks, v.store, v.m_size - 1⟩

/-- clear(): destroy all constructed elements (a pass that `if constexpr`
skips entirely for trivially destructible types, with no value-level effect
either way) and reset `m_size` to 0.  The directory and the chunk storage are
untouched. -/
def clear (v : chunk_vector α) : chunk_vector α := ⟨v.m_chunks, v.store, 0⟩

/-- `std::move(first, last, d_first)` over slots with `d_first` before
`first`: copy `count` slots one by one, slot `src + k` into slot `dst + k`,
in increasing `k`. -/
def moveSlots [Inhabited α] (st : List α) (dst src : Nat) : Nat → List α
  | 0 => st
  | c + 1 => moveSlots (st.set dst (st.getD src default)) (dst + 1) (src + 1) c

/-- erase(iterator pos): `std::move(pos + 1, end(), pos); pop_back(); return
pos;`.  Returns the new state and the returned iterator's index. -/
def eraseOne [Inhabited α] (v : chunk_vector α) (p : Nat) :
    chunk_vector α × Nat :=
  let moved := moveSlots v.store p (p + 1) (v.m_size - (p + 1))
  (pop_back ⟨v.m_chunks, moved, v.m_size⟩, p)

/-- erase(iterator first, iterator last) exactly as written in the source:

    if (first >= last)
        return;                                  -- no value is produced
    std::move(last, end(), first);
    erase(end() - (last - first), end());        -- recursive range erase
    m_size -= last - first;                      -- then falls off the end

The `return;` branch of this `iterator`-returning function produces no value
(modelled `none`), and the non-empty branch recursively calls the same
overload on `[end() - (last - first), end())` before `m_size` has been
reduced.  `fuel` bounds the recursion depth; `none` means no result was
produced within the given depth. -/
def eraseRangeCode [Inhabited α] :
    Nat → chunk_vector α → Nat → Nat → Option (chunk_vector α)
  | 0, _, _, _ => none
  | fuel + 1, v, f, l =>
    if f ≥ l then none
    else
      let moved := moveSlots v.store f l (v.m_size - l)
      match eraseRangeCode fuel ⟨v.m_chunks, moved, v.m_size⟩
          (v.m_size - (l - f)) v.m_size with
      | none => none
      | some v2 => some ⟨v2.m_chunks, v2.store, v2.m_size - (l - f)⟩

/-- 2^64, the modulus of `std::size_t` arithmetic on the target platform. -/
def usizeMod : Nat := 2 ^ 64

/-- `size_t` subtraction `a - b`, with unsigned wrap-around modulo 2^64. -/
def sub64 (a b : Nat) : Nat :=
  (a % usizeMod + (usizeMod - b % usizeMod)) % usizeMod

/-- The loop of reserve(new_cap): `for (size_type i = new_cap - old_cap;
i > 0; i -= ChunkSize) add_chunk();` with `i` a `size_t` (wrap-around
subtraction).  `fuel` bounds the iteration count; `none` means the loop did
not finish within the given fuel. -/
def reserveLoop (cs : Nat) [Inhabited α] :
    Nat → chunk_vector α → Nat → Nat → Option (chunk_vector α × Nat)
  | 0, _, _, _ => none
  | fuel + 1, v, ctr, i =>
    if 0 < i then
      let p := add_chunk cs v ctr
      reserveLoop cs fuel p.1 p.2 (sub64 i cs)
    else some (v, ctr)

/-- reserve(new_cap): `const auto old_cap = capacity();` then the counting
loop above starting from `new_cap - old_cap`. -/
def reserveCode (cs : Nat) [Inhabited α] (fuel : Nat) (v : chunk_vector α)
    (ctr new_cap : Nat) : Option (chunk_vector α × Nat) :=
  reserveLoop cs fuel v ctr (sub64 new_cap (capacity cs v))

/-- emplace_back_all_from_other(const chunk_vector& other):
`for (const auto& v : other) emplace_back(v);` — appends a copy of every
element of `other`, in iteration order, to `dest`. -/
def emplace_back_all_from_other (cs : Nat) [Inhabited α]
    (dest : chunk_vector α) (ctr : Nat) (src : chunk_vector α) :
    chunk_vector α × Nat :=
  (elems src).foldl (fun p x => emplace_back cs p.1 p.2 x) (dest, ctr)

/-- chunk_vector(const chunk_vector& other): start from a fresh empty
directory, then emplace_back_all_from_other(other). -/
def copyCtor (cs : Nat) [Inhabited α] (src : chunk_vector α) (ctr : Nat) :
    chunk_vector α × Nat :=
  emplace_back_all_from_other cs ⟨[], [], 0⟩ ctr src

/-- chunk_vector(chunk_vector&& other): delegates to
`chunk_vector(std::move(other), get_allocator())`, whose body runs
`emplace_back_all_from_other(other)`.  There `other` is a named rvalue
reference, hence an lvalue, so the copying `const chunk_vector&` overload is
selected: every element is copied and `other` is never emptied.  Result:
(destination, source after the construction, allocator counter). -/
def moveCtor (cs : Nat) [Inhabited α] (src : chunk_vector α) (ctr : Nat) :
    chunk_vector α × chunk_vector α × Nat :=
  let p := copyCtor cs src ctr
  (p.1, src, p.2)

/-- operator=(chunk_vector&& other) in the `get_allocator() ==
other.get_allocator()` case: `clear(); deallocate();` (the destination's old
chunks are released), then `m_chunks = std::move(other.m_chunks); m_size =
std::exchange(other.m_size, {});` — the destination adopts the source's
directory, storage and size; the source is left with an empty (moved-from)
directory and size 0.  Result: (destination after, source after). -/
def moveAssignEq (dest src : chunk_vector α) :
    chunk_vector α × chunk_vector α :=
  (⟨src.m_chunks, src.store, src.m_size⟩, ⟨[], [], 0⟩)

/-- operator=(const chunk_vector& other): `if (this == &other) return *this;`
(the `self` flag models the pointer-identity test `this == &other`), else
`clear();` then (equal allocators, so the propagate branch is not taken)
`emplace_back_all_from_other(other);`. -/
def copyAssign (cs : Nat) [Inhabited α] (dest : chunk_vector α) (ctr : Nat)
    (src : chunk_vector α) (self : Bool) : chunk_vector α × Nat :=
  if self then (dest, ctr)
  else emplace_back_all_from_other cs (clear dest) ctr src

/-- A sequence of appends: fold push_back over the given values. -/
def appendAll (cs : Nat) [Inhabited α] (s : chunk_vector α × Nat)
    (xs : List α) : chunk_vector α × Nat :=
  xs.foldl (fun p x => push_back cs p.1 p.2 x) s

/-- Iteration from begin() to end(): dereference (via the index
decomposition) every logical index in `[0, m_size)`, in order. -/
def iterSeq [Inhabited α] (v : chunk_vector α) : List α :=
  (List.range v.m_size).map (getIdx v)

/-- operator==: `m_size == other.m_size && std::equal(begin(), end(),
other.begin(), other.end())`; `stdEqual` is the four-iterator `std::equal`
(equal lengths and pairwise equal elements). -/
def stdEqual [DecidableEq α] : List α → List α → Bool
  | [], [] => true
  | a :: as, b :: bs => decide (a = b) && stdEqual as bs
  | _, _ => false

/-- operator== on containers. -/
def cvEq [DecidableEq α] [Inhabited α] (v w : chunk_vector α) : Bool :=
  decide (v.m_size = w.m_size) && stdEqual (iterSeq v) (iterSeq w)

/-- Storage accounting invariant of a container state: the flattened store
covers exactly the directory's chunks, and the constructed prefix fits. -/
def WF (cs : Nat) (v : chunk_vector α) : Prop :=
  v.store.length = v.m_chunks.length * cs ∧ v.m_size ≤ v.store.length

instance (cs : Nat) (v : chunk_vector α) : Decidable (WF cs v) := by
  unfold WF; infer_instance

/-- Container states reachable by the modelled operations, starting from a
default-constructed container. -/
inductive Reachable {α : Type} [Inhabited α] (cs : Nat) :
    chunk_vector α → Prop where
  | empty : Reachable cs ⟨[], [], 0⟩
  | pushStep (v : chunk_vector α) (ctr : Nat) (x : α) :
      Reachable cs v → Reachable cs (push_back cs v ctr x).1
  | emplaceStep (v : chunk_vector α) (ctr : Nat) (x : α) :
      Reachable cs v → Reachable cs (emplace_back cs v ctr x).1
  | popStep (v : chunk_vector α) :
      Reachable cs v → Reachable cs (pop_back v)
  | clearStep (v : chunk_vector α) :
      Reachable cs v → Reachable cs (clear v)
  | eraseStep (v : chunk_vector α) (p : Nat) :
      Reachable cs v → Reachable cs (eraseOne v p).1
  | copyCtorStep (src : chunk_vector α) (ctr : Nat) :
      Reachable cs src → Reachable cs (copyCtor cs src ctr).1
  | copyAssignStep (dest : chunk_vector α) (ctr : Nat)
      (src : chunk_vector α) (self : Bool) :
      Reachable cs dest → Reachable cs src →
      Reachable cs (copyAssign cs dest ctr src self).1
  | moveAssignDest (dest src : chunk_vector α) :
      Reachable cs dest → Reachable cs src →
      Reachable cs (moveAssignEq dest src).1
  | moveAssignSrc (dest src : chunk_vector α) :
      Reachable cs dest → Reachable cs src →
      Reachable cs (moveAssignEq dest src).2

/-!  Basic helper lemmas about the embedded operations. -/

theorem is_powerof2_pos {cs : Nat} (h : is_powerof2 cs = true) : 0 < cs := by
  have h2 := (Bool.and_eq_true _ _).mp h
  have h3 : cs ≠ 0 := by simpa using h2.1
  omega

theorem moveSlots_length [Inhabited α] (st : List α) (dst src c : Nat) :
    (moveSlots st dst src c).length = st.length := by
  induction c generalizing st dst src with
  | zero => rfl
  | succ c ih => simp [moveSlots, ih]

theorem set_take_succ (l : List α) (n : Nat) (x : α) (h : n < l.length) :
    (l.set n x).take (n + 1) = l.take n ++ [x] := by
  induction l generalizing n with
  | nil => simp at h
  | cons a t ih =>
    cases n with
    | zero => simp
    | succ m =>
      have hm : m < t.length := by simpa using h
      simp [ih m hm]

theorem push_back_full {cs : Nat} [Inhabited α] {v : chunk_vector α}
    (ctr : Nat) (x : α) (h : size v = capacity cs v) :
    push_back cs v ctr x =
      (⟨v.m_chunks ++ [ctr],
        (v.store ++ List.replicate cs default).set v.m_size x,
        v.m_size + 1⟩, ctr + 1) := by
  simp [push_back, maybe_increase_capacity, add_chunk, h]

theorem push_back_notfull {cs : Nat} [Inhabited α] {v : chunk_vector α}
    (ctr : Nat) (x : α) (h : ¬ size v = capacity cs v) :
    push_back cs v ctr x =
      (⟨v.m_chunks, v.store.set v.m_size x, v.m_size + 1⟩, ctr) := by
  simp [push_back, maybe_increase_capacity, h]

theorem push_back_elems {cs : Nat} [Inhabited α] {v : chunk_vector α}
    (hcs : 0 < cs) (hwf : WF cs v) (ctr : Nat) (x : α) :
    elems (push_back cs v ctr x).1 = elems v ++ x :: [] := by
  by_cases h : size v = capacity cs v
  · rw [push_back_full ctr x h]
    have hlen : v.store.length = v.m_size := by
      have := hwf.1
      simp only [size, capacity] at h
      omega
    have hset : (v.store ++ List.replicate cs default).set v.m_size x =
        v.store ++ (List.replicate cs default).set 0 x := by
      rw [List.set_append_right _ _ (by omega)]
      simp [hlen]
    simp only [elems, hset]
    cases cs with
    | zero => omega
    | succ m =>
      simp only [List.replicate, List.set_cons_zero]
      rw [List.take_append_eq_append_take]
      rw [List.take_of_length_le (by omega : v.store.length ≤ v.m_size + 1)]
      have h1 : v.m_size + 1 - v.store.length = 1 := by omega
      rw [h1]
      rw [List.take_of_length_le (by omega : v.store.length ≤ v.m_size)]
      simp
  · rw [push_back_notfull ctr x h]
    have hlt : v.m_size < v.store.length := by
      have h1 := hwf.1
      have h2 := hwf.2
      simp only [size, capacity] at h
      omega
    simp only [elems]
    rw [set_take_succ _ _ _ hlt]

theorem push_back_WF {cs : Nat} [Inhabited α] {v : chunk_vector α}
    (hcs : 0 < cs) (hwf : WF cs v) (ctr : Nat) (x : α) :
    WF cs (push_back cs v ctr x).1 := by
  by_cases h : size v = capacity cs v
  · rw [push_back_full ctr x h]
    constructor
    · simp [hwf.1, Nat.succ_mul]
    · simp only [size, capacity] at h
      have := hwf.1
      simp
      omega
  · rw [push_back_notfull ctr x h]
    constructor
    · simpa using hwf.1
    · have h1 := hwf.1
      have h2 := hwf.2
      simp only [size, capacity] at h
      simp
      omega

theorem push_back_m_size {cs : Nat} [Inhabited α] (v : chunk_vector α)
    (ctr : Nat) (x : α) :
    (push_back cs v ctr x).1.m_size = v.m_size + 1 := by
  by_cases h : size v = capacity cs v
  · rw [push_back_full ctr x h]
  · rw [push_back_notfull ctr x h]

theorem push_back_dir {cs : Nat} [Inhabited α] (v : chunk_vector α)
    (ctr : Nat) (x : α) :
    (push_back cs v ctr x).1.m_chunks =
      if size v = capacity cs v then v.m_chunks ++ [ctr] else v.m_chunks := by
  by_cases h : size v = capacity cs v
  · rw [push_back_full ctr x h, if_pos h]
  · rw [push_back_notfull ctr x h, if_neg h]

theorem push_back_ctr {cs : Nat} [Inhabited α] (v : chunk_vector α)
    (ctr : Nat) (x : α) :
    (push_back cs v ctr x).2 =
      if size v = capacity cs v then ctr + 1 else ctr := by
  by_cases h : size v = capacity cs v
  · rw [push_back_full ctr x h, if_pos h]
  · rw [push_back_notfull ctr x h, if_neg h]

theorem emplace_back_eq_push_back {cs : Nat} [Inhabited α]
    (v : chunk_vector α) (ctr : Nat) (x : α) :
    emplace_back cs v ctr x = push_back cs v ctr x := rfl

theorem elems_length {cs : Nat} {v : chunk_vector α} (hwf : WF cs v) :
    (elems v).length = v.m_size := by
  have := hwf.2
  simp only [elems, List.length_take]
  omega

theorem iterSeq_eq_elems [Inhabited α] {v : chunk_vector α}
    (h : v.m_size ≤ v.store.length) : iterSeq v = elems v := by
  apply List.ext_getElem?
  intro i
  simp only [iterSeq, elems, List.getElem?_map]
  rw [List.getElem?_take]
  by_cases hi : i < v.m_size
  · rw [if_pos hi, List.getElem?_range hi]
    have hlen : i < v.store.length := by omega
    simp [getIdx, List.getElem?_eq_getElem hlen]
  · rw [if_neg hi]
    have : (List.range v.m_size).length ≤ i := by simpa using Nat.le_of_not_lt hi
    simp [List.getElem?_eq_none this]

theorem pop_back_pos {v : chunk_vector α} (h : ¬ v.m_size = 0) :
    pop_back v = ⟨v.m_chunks, v.store, v.m_size - 1⟩ := by
  rw [pop_back, if_neg h]

theorem appendAll_spec {cs : Nat} [Inhabited α] (hcs : 0 < cs) :
    ∀ (xs : List α) (v : chunk_vector α) (ctr : Nat), WF cs v →
      elems (appendAll cs (v, ctr) xs).1 = elems v ++ xs ∧
      WF cs (appendAll cs (v, ctr) xs).1 := by
  intro xs
  induction xs with
  | nil => exact fun v ctr hwf => ⟨by simp [appendAll], hwf⟩
  | cons x xs ih =>
    intro v ctr hwf
    have hstep : appendAll cs (v, ctr) (x :: xs) =
        appendAll cs ((push_back cs v ctr x).1, (push_back cs v ctr x).2) xs :=
      rfl
    rw [hstep]
    obtain ⟨h1, h2⟩ :=
      ih (push_back cs v ctr x).1 (push_back cs v ctr x).2
        (push_back_WF hcs hwf ctr x)
    refine ⟨?_, h2⟩
    rw [h1, push_back_elems hcs hwf ctr x]
    simp

theorem push_back_capacity {cs : Nat} [Inhabited α] (v : chunk_vector α)
    (ctr : Nat) (x : α) :
    capacity cs v ≤ capacity cs (push_back cs v ctr x).1 := by
  rw [capacity, capacity, push_back_dir]
  by_cases h : size v = capacity cs v
  · rw [if_pos h]
    exact Nat.mul_le_mul_right _ (by simp)
  · rw [if_neg h]

theorem push_back_ctr_le {cs : Nat} [Inhabited α] (v : chunk_vector α)
    (ctr : Nat) (x : α) : ctr ≤ (push_back cs v ctr x).2 := by
  rw [push_back_ctr]
  split <;> omega

theorem appendAll_capacity {cs : Nat} [Inhabited α] :
    ∀ (xs : List α) (v : chunk_vector α) (ctr : Nat),
      capacity cs v ≤ capacity cs (appendAll cs (v, ctr) xs).1 := by
  intro xs
  induction xs with
  | nil => exact fun v ctr => Nat.le_refl _
  | cons x xs ih =>
    intro v ctr
    have hstep : appendAll cs (v, ctr) (x :: xs) =
        appendAll cs ((push_back cs v ctr x).1, (push_back cs v ctr x).2) xs :=
      rfl
    rw [hstep]
    exact Nat.le_trans (push_back_capacity v ctr x)
      (ih (push_back cs v ctr x).1 (push_back cs v ctr x).2)

theorem appendAll_dir_bound {cs : Nat} [Inhabited α] :
    ∀ (xs : List α) (v : chunk_vector α) (ctr c0 : Nat), c0 ≤ ctr →
      c0 ≤ (appendAll cs (v, ctr) xs).2 ∧
      ∀ a ∈ (appendAll cs (v, ctr) xs).1.m_chunks,
        a ∈ v.m_chunks ∨ c0 ≤ a := by
  intro xs
  induction xs with
  | nil => exact fun v ctr c0 h => ⟨h, fun a ha => Or.inl ha⟩
  | cons x xs ih =>
    intro v ctr c0 h
    have hstep : appendAll cs (v, ctr) (x :: xs) =
        appendAll cs ((push_back cs v ctr x).1, (push_back cs v ctr x).2) xs :=
      rfl
    rw [hstep]
    have hctr : c0 ≤ (push_back cs v ctr x).2 :=
      Nat.le_trans h (push_back_ctr_le v ctr x)
    obtain ⟨h1, h2⟩ := ih (push_back cs v ctr x).1 (push_back cs v ctr x).2 c0 hctr
    refine ⟨h1, fun a ha => ?_⟩
    rcases h2 a ha with hin | hge
    · rw [push_back_dir] at hin
      by_cases hf : size v = capacity cs v
      · rw [if_pos hf] at hin
        rcases List.mem_append.mp hin with h3 | h3
        · exact Or.inl h3
        · simp only [List.mem_singleton] at h3
          subst h3
          exact Or.inr h
      · rw [if_neg hf] at hin
        exact Or.inl hin
    · exact Or.inr hge

theorem emplace_all_eq_appendAll {cs : Nat} [Inhabited α]
    (dest : chunk_vector α) (ctr : Nat) (src : chunk_vector α) :
    emplace_back_all_from_other cs dest ctr src =
      appendAll cs (dest, ctr) (elems src) := rfl

theorem moveSlots_getElem [Inhabited α] :
    ∀ (c : Nat) (st : List α) (p i : Nat), p + 1 + c ≤ st.length →
      (moveSlots st p (p + 1) c)[i]? =
        if p ≤ i ∧ i < p + c then st[i + 1]? else st[i]? := by
  intro c
  induction c with
  | zero =>
    intro st p i h
    rw [if_neg (by omega)]
    rfl
  | succ c ih =>
    intro st p i h
    show (moveSlots (st.set p (st.getD (p + 1) default))
        (p + 1) (p + 1 + 1) c)[i]? = _
    have h2 : (p + 1) + 1 + c ≤ (st.set p (st.getD (p + 1) default)).length := by
      simp
      omega
    rw [ih (st.set p (st.getD (p + 1) default)) (p + 1) i h2]
    rcases Nat.lt_trichotomy i p with hip | hip | hip
    · rw [if_neg (by omega), if_neg (by omega),
        List.getElem?_set_ne (by omega)]
    · subst hip
      rw [if_neg (by omega), if_pos (by omega),
        List.getElem?_set_self (by omega)]
      have hp1 : i + 1 < st.length := by omega
      simp [List.getD_eq_getElem?_getD, List.getElem?_eq_getElem hp1]
    · by_cases h3 : i < p + 1 + c
      · rw [if_pos (by omega), if_pos (by omega),
          List.getElem?_set_ne (by omega)]
      · rw [if_neg (by omega), if_neg (by omega),
          List.getElem?_set_ne (by omega)]

/-- C4: single-position erase at a valid position `p` of a container of size
`n` destroys the element at `p`, shifts every subsequent element one slot
toward the front via move-assignment (elements before `p` keep their values),
yields size `n - 1`, keeps the chunk directory unchanged, and returns the
position `p` — the slot after the removed element, which now holds the former
next element, or the end position if none.  (Modelled for trivially
destructible element types, the only ones for which the source's destructor
branch instantiates.) -/
theorem erase_single_spec [Inhabited α] (v : chunk_vector α) (p : Nat)
    (hs : v.m_size ≤ v.store.length) (hp : p < v.m_size) :
    elems (eraseOne v p).1 = (elems v).take p ++ (elems v).drop (p + 1) ∧
    size (eraseOne v p).1 = size v - 1 ∧
    (eraseOne v p).1.m_chunks = v.m_chunks ∧
    (eraseOne v p).2 = p := by
  have hne : ¬ (⟨v.m_chunks, moveSlots v.store p (p + 1) (v.m_size - (p + 1)),
      v.m_size⟩ : chunk_vector α).m_size = 0 := by
    show ¬ v.m_size = 0
    omega
  have he : (eraseOne v p).1 =
      ⟨v.m_chunks, moveSlots v.store p (p + 1) (v.m_size - (p + 1)),
        v.m_size - 1⟩ := by
    show pop_back ⟨v.m_chunks,
      moveSlots v.store p (p + 1) (v.m_size - (p + 1)), v.m_size⟩ = _
    rw [pop_back_pos hne]
  have hc : p + 1 + (v.m_size - (p + 1)) ≤ v.store.length := by omega
  refine ⟨?_, by rw [he]; rfl, by rw [he], rfl⟩
  rw [he]
  show (moveSlots v.store p (p + 1) (v.m_size - (p + 1))).take (v.m_size - 1)
      = (elems v).take p ++ (elems v).drop (p + 1)
  apply List.ext_getElem?
  intro i
  simp only [elems, List.getElem?_take, List.getElem?_append,
    List.getElem?_drop, List.length_take, moveSlots_getElem _ _ _ _ hc]
  split_ifs <;> first
    | rfl
    | omega
    | (congr 1; omega)

/-- Witness for the single-erase theorem, at the spec's concrete scenario:
erasing position 2 from {0,1,2,3,4} (ChunkSize 4, two chunks) yields
{0,1,3,4} with size 4. -/
theorem erase_single_spec_witness :
    elems (eraseOne
        (⟨[0, 1], [0, 1, 2, 3, 4, 9, 9, 9], 5⟩ : chunk_vector Nat) 2).1
      = [0, 1, 3, 4] ∧
    size (eraseOne
        (⟨[0, 1], [0, 1, 2, 3, 4, 9, 9, 9], 5⟩ : chunk_vector Nat) 2).1
      = 4 := by
  have h := erase_single_spec
    (⟨[0, 1], [0, 1, 2, 3, 4, 9, 9, 9], 5⟩ : chunk_vector Nat) 2
    (by decide) (by decide)
  exact ⟨h.1.trans (by decide), h.2.1.trans (by decide)⟩

/-- C7: for any sequence of appends starting from an empty container, size()
equals the number of appended values and iteration from begin() to end()
yields them in append order; concretely, with ChunkSize = 4, appending the
integers 0..9 yields size() == 10, capacity() == 12 (3 chunks), and
container[i] == i for every i < 10. -/
theorem append_sequence_spec {α : Type} [Inhabited α] (cs : Nat)
    (xs : List α) (i : Nat) (hcs : is_powerof2 cs = true) (hi : i < 10) :
    size (appendAll cs ((⟨[], [], 0⟩ : chunk_vector α), 0) xs).1 = xs.length ∧
    iterSeq (appendAll cs ((⟨[], [], 0⟩ : chunk_vector α), 0) xs).1 = xs ∧
    size (appendAll 4 ((⟨[], [], 0⟩ : chunk_vector Nat), 0)
      (List.range 10)).1 = 10 ∧
    capacity 4 (appendAll 4 ((⟨[], [], 0⟩ : chunk_vector Nat), 0)
      (List.range 10)).1 = 12 ∧
    getIdx (appendAll 4 ((⟨[], [], 0⟩ : chunk_vector Nat), 0)
      (List.range 10)).1 i = i := by
  have hpos := is_powerof2_pos hcs
  have hWF0 : WF cs (⟨[], [], 0⟩ : chunk_vector α) := ⟨by simp, by simp⟩
  obtain ⟨h1, h2⟩ := appendAll_spec hpos xs ⟨[], [], 0⟩ 0 hWF0
  have helems : elems (appendAll cs ((⟨[], [], 0⟩ : chunk_vector α), 0) xs).1
      = xs := by
    simpa [elems] using h1
  refine ⟨?_, ?_, by decide, by decide, ?_⟩
  · have hl := elems_length h2
    rw [helems] at hl
    exact hl.symm
  · rw [iterSeq_eq_elems h2.2, helems]
  · have hall : ∀ j, j < 10 →
        getIdx (appendAll 4 ((⟨[], [], 0⟩ : chunk_vector Nat), 0)
          (List.range 10)).1 j = j := by decide
    exact hall i hi

/-- Witness for the append-sequence theorem at ChunkSize 4, the appended list
[5, 6, 7] and index 7 of the concrete 0..9 scenario. -/
theorem append_sequence_spec_witness :
    size (appendAll 4 ((⟨[], [], 0⟩ : chunk_vector Nat), 0) [5, 6, 7]).1 = 3 ∧
    iterSeq (appendAll 4 ((⟨[], [], 0⟩ : chunk_vector Nat), 0)
      [5, 6, 7]).1 = [5, 6, 7] ∧
    size (appendAll 4 ((⟨[], [], 0⟩ : chunk_vector Nat), 0)
      (List.range 10)).1 = 10 ∧
    capacity 4 (appendAll 4 ((⟨[], [], 0⟩ : chunk_vector Nat), 0)
      (List.range 10)).1 = 12 ∧
    getIdx (appendAll 4 ((⟨[], [], 0⟩ : chunk_vector Nat), 0)
      (List.range 10)).1 7 = 7 :=
  append_sequence_spec 4 [5, 6, 7] 7 (by decide) (by decide)

theorem stdEqual_iff [DecidableEq α] :
    ∀ (xs ys : List α), stdEqual xs ys = true ↔ xs = ys := by
  intro xs
  induction xs with
  | nil =>
    intro ys
    cases ys <;> simp [stdEqual]
  | cons a as ih =>
    intro ys
    cases ys with
    | nil => simp [stdEqual]
    | cons b bs => simp [stdEqual, ih bs]

theorem cvEq_iff [DecidableEq α] [Inhabited α] (v w : chunk_vector α) :
    cvEq v w = true ↔ size v = size w ∧ iterSeq v = iterSeq w := by
  simp [cvEq, stdEqual_iff, size]

/-- C5: the checked accessor `at(pos)` signals out-of-range (throws
`std::out_of_range`, modelled as `none`) exactly when `pos ≥ size()`, and
when `pos < size()` it returns the element at logical index `pos`.  `at` only
reads the container, so in the failure case the container state is unchanged
by construction. -/
theorem at_checked_spec [Inhabited α] (v : chunk_vector α) (pos : Nat) :
    atIdx v pos =
      if pos ≥ size v then none else some ((elems v).getD pos default) := by
  rw [atIdx]
  by_cases h : pos ≥ size v
  · rw [if_pos h, if_pos h]
  · rw [if_neg h, if_neg h]
    have hlt : pos < v.m_size := Nat.lt_of_not_le h
    congr 1
    rw [getIdx, elems, List.getD_eq_getElem?_getD, List.getD_eq_getElem?_getD,
      List.getElem?_take, if_pos hlt]

/-- C8: `clear()` destroys every constructed element (the destruction pass is
`if constexpr`-skipped for trivially destructible element types and has no
value-level effect either way) and resets `size()` to 0; the chunk directory,
the chunk storage and `capacity()` are left unchanged — no chunk allocation
is released. -/
theorem clear_spec (cs : Nat) (v : chunk_vector α) :
    size (clear v) = 0 ∧ (clear v).m_chunks = v.m_chunks ∧
    capacity cs (clear v) = capacity cs v ∧ (clear v).store = v.store :=
  ⟨rfl, rfl, rfl, rfl⟩

/-- C10: copy-assigning a container to itself takes the `this == &other`
early-return branch: the state (directory, storage, size — hence also
capacity and elements) and the allocator counter are returned unchanged; no
element is destroyed or re-constructed. -/
theorem self_copy_assign_noop (cs : Nat) [Inhabited α] (v : chunk_vector α)
    (ctr : Nat) : copyAssign cs v ctr v true = (v, ctr) := rfl

/-- C9: operator== returns true iff the sizes match and the element
sequences traversed from begin() to end() are pairwise equal in order; a
copy-constructed container compares equal to its source immediately after
construction; and the copy's chunks are freshly allocated — with the
allocator counter ahead of every chunk address of the source (as it always
is, addresses being handed out in allocation order), no chunk address of the
copy is shared with the source, so the two containers have independent
storage and mutating the copy cannot change the source's elements. -/
theorem equality_copy_spec {α : Type} [Inhabited α] [DecidableEq α]
    (cs : Nat) (v w src : chunk_vector α) (ctr a : Nat)
    (hcs : 0 < cs) (hwf : WF cs src)
    (hfresh : ∀ b ∈ src.m_chunks, b < ctr)
    (ha : a ∈ (copyCtor cs src ctr).1.m_chunks) :
    (cvEq v w = true ↔ size v = size w ∧ iterSeq v = iterSeq w) ∧
    cvEq (copyCtor cs src ctr).1 src = true ∧
    a ∉ src.m_chunks := by
  have hWF0 : WF cs (⟨[], [], 0⟩ : chunk_vector α) := ⟨by simp, by simp⟩
  have heq : copyCtor cs src ctr =
      appendAll cs ((⟨[], [], 0⟩ : chunk_vector α), ctr) (elems src) := rfl
  obtain ⟨h1, h2⟩ := appendAll_spec hcs (elems src) ⟨[], [], 0⟩ ctr hWF0
  have helems : elems (copyCtor cs src ctr).1 = elems src := by
    rw [heq, h1]
    simp [elems]
  have hwfc : WF cs (copyCtor cs src ctr).1 := by
    rw [heq]
    exact h2
  refine ⟨cvEq_iff v w, ?_, ?_⟩
  · rw [cvEq_iff]
    constructor
    · have hl1 := elems_length hwfc
      have hl2 := elems_length hwf
      rw [helems] at hl1
      show (copyCtor cs src ctr).1.m_size = src.m_size
      omega
    · rw [iterSeq_eq_elems hwfc.2, iterSeq_eq_elems hwf.2, helems]
  · intro hmem
    have ha2 : a ∈ (appendAll cs ((⟨[], [], 0⟩ : chunk_vector α), ctr)
        (elems src)).1.m_chunks := by
      rw [← heq]
      exact ha
    obtain ⟨hb1, hb2⟩ := appendAll_dir_bound (elems src)
      ⟨[], [], 0⟩ ctr ctr (Nat.le_refl ctr)
    rcases hb2 a ha2 with h3 | h3
    · simp at h3
    · exact absurd (hfresh a hmem) (by omega)

/-- Witness for the equality/copy theorem: two containers with different
directories and junk slots but equal element sequences, a copied source of
two elements, and the copy's single (fresh) chunk address 3. -/
theorem equality_copy_spec_witness :
    (cvEq (⟨[5], [1, 2, 0, 0], 2⟩ : chunk_vector Nat)
        (⟨[9], [1, 2, 7, 7], 2⟩ : chunk_vector Nat) = true ↔
      size (⟨[5], [1, 2, 0, 0], 2⟩ : chunk_vector Nat) =
        size (⟨[9], [1, 2, 7, 7], 2⟩ : chunk_vector Nat) ∧
      iterSeq (⟨[5], [1, 2, 0, 0], 2⟩ : chunk_vector Nat) =
        iterSeq (⟨[9], [1, 2, 7, 7], 2⟩ : chunk_vector Nat)) ∧
    cvEq (copyCtor 4 (⟨[0], [1, 2, 0, 0], 2⟩ : chunk_vector Nat) 3).1
      (⟨[0], [1, 2, 0, 0], 2⟩ : chunk_vector Nat) = true ∧
    3 ∉ (⟨[0], [1, 2, 0, 0], 2⟩ : chunk_vector Nat).m_chunks :=
  equality_copy_spec 4 ⟨[5], [1, 2, 0, 0], 2⟩ ⟨[9], [1, 2, 7, 7], 2⟩
    ⟨[0], [1, 2, 0, 0], 2⟩ 3 3 (by decide) (by decide) (by decide) (by decide)

theorem eraseRangeCode_none [Inhabited α] :
    ∀ (fuel : Nat) (v : chunk_vector α) (f l : Nat), f < l → l ≤ v.m_size →
      eraseRangeCode fuel v f l = none := by
  intro fuel
  induction fuel with
  | zero => intro v f l h1 h2; rfl
  | succ fuel ih =>
    intro v f l h1 h2
    simp only [eraseRangeCode]
    rw [if_neg (by omega)]
    have hrec := ih
      ⟨v.m_chunks, moveSlots v.store f l (v.m_size - l), v.m_size⟩
      (v.m_size - (l - f)) v.m_size (by omega) (Nat.le_refl _)
    rw [hrec]

/-- C1: the claim states that range erase of [first, last) is a no-op
returning first when the range is empty, and otherwise removes the range,
shifts the tail left, shrinks size() by the erased count and returns the
first survivor — concretely that erasing [1,3) from {0,1,2,3,4} yields
{0,3,4} with size 3.  The code cannot do this: the empty-range branch is
`return;` inside an `iterator`-returning function (producing no value), and
the non-empty branch calls `erase(end() - (last - first), end())` before
`m_size` has been decreased, so the recursion reproduces its own arguments
and never terminates.  On the claim's own scenario (erasing [1,3) from
{0,1,2,3,4}, ChunkSize 4) no result is produced at any recursion depth. -/
theorem erase_range_diverges (fuel : Nat) :
    eraseRangeCode fuel
      (⟨[0, 1], [0, 1, 2, 3, 4, 9, 9, 9], 5⟩ : chunk_vector Nat) 1 3 = none :=
  eraseRangeCode_none fuel _ 1 3 (by omega) (by decide)

theorem usizeMod_val : usizeMod = 18446744073709551616 := by
  norm_num [usizeMod]

theorem reserveLoop_none [Inhabited α] :
    ∀ (fuel : Nat) (v : chunk_vector α) (ctr i : Nat), i % 4096 ≠ 0 →
      reserveLoop 4096 fuel v ctr i = none := by
  intro fuel
  induction fuel with
  | zero => intro v ctr i h; rfl
  | succ fuel ih =>
    intro v ctr i h
    simp only [reserveLoop]
    rw [if_pos (by omega)]
    apply ih
    simp only [sub64, usizeMod_val]
    omega

/-- C2: the claim states that reserve(n) always terminates with
capacity() ≥ n, in particular when n − capacity() is not a multiple of
ChunkSize.  The code's loop `for (size_type i = new_cap - old_cap; i > 0;
i -= ChunkSize)` decrements an unsigned counter that wraps modulo 2^64, so
`i mod ChunkSize` is invariant and the loop can only stop at `i == 0` when
the initial difference is a multiple of ChunkSize.  On the failing input —
`reserve(1)` on an empty container with the default ChunkSize 4096 — the
counter stays ≡ 1 (mod 4096) forever and the loop never terminates: no
result is produced at any iteration bound. -/
theorem reserve_diverges (fuel : Nat) :
    reserveCode 4096 fuel (⟨[], [], 0⟩ : chunk_vector Nat) 0 1 = none := by
  apply reserveLoop_none
  decide

/-- C3: the claim states that after move construction or move assignment the
source reports size() == 0 and the destination holds the source's prior
elements.  Move assignment (equal allocators) does adopt and empty the
source, but the move constructor delegates to
`chunk_vector(std::move(other), get_allocator())`, whose body calls
`emplace_back_all_from_other(other)` with `other` as an lvalue — the copying
overload — so the elements are copied and the source is never emptied.
Evaluating the code on a container holding {10, 20, 30} (ChunkSize 4): the
destination does receive [10, 20, 30], but the source is returned unchanged
and still reports size() == 3, not 0. -/
theorem move_ctor_keeps_source :
    (moveCtor 4 (⟨[7], [10, 20, 30, 0], 3⟩ : chunk_vector Nat) 8).2.1 =
      (⟨[7], [10, 20, 30, 0], 3⟩ : chunk_vector Nat) ∧
    size (moveCtor 4 (⟨[7], [10, 20, 30, 0], 3⟩ : chunk_vector Nat) 8).2.1
      = 3 ∧
    elems (moveCtor 4 (⟨[7], [10, 20, 30, 0], 3⟩ : chunk_vector Nat) 8).1 =
      [10, 20, 30] := by
  refine ⟨rfl, rfl, ?_⟩
  decide

/-!  Well-formedness is preserved by every modelled operation. -/

theorem pop_back_WF {cs : Nat} {v : chunk_vector α} (hwf : WF cs v) :
    WF cs (pop_back v) := by
  rw [pop_back]
  split
  · exact hwf
  · refine ⟨hwf.1, ?_⟩
    show v.m_size - 1 ≤ v.store.length
    have := hwf.2
    omega

theorem pop_back_capacity (cs : Nat) (v : chunk_vector α) :
    capacity cs (pop_back v) = capacity cs v := by
  rw [pop_back]
  split <;> rfl

theorem clear_WF {cs : Nat} {v : chunk_vector α} (hwf : WF cs v) :
    WF cs (clear v) :=
  ⟨hwf.1, Nat.zero_le _⟩

theorem eraseOne_WF [Inhabited α] {cs : Nat} {v : chunk_vector α} (p : Nat)
    (hwf : WF cs v) : WF cs (eraseOne v p).1 := by
  have hmid : WF cs (⟨v.m_chunks,
      moveSlots v.store p (p + 1) (v.m_size - (p + 1)),
      v.m_size⟩ : chunk_vector α) := by
    refine ⟨?_, ?_⟩
    · show (moveSlots v.store p (p + 1) (v.m_size - (p + 1))).length
        = v.m_chunks.length * cs
      rw [moveSlots_length]
      exact hwf.1
    · show v.m_size ≤
        (moveSlots v.store p (p + 1) (v.m_size - (p + 1))).length
      rw [moveSlots_length]
      exact hwf.2
  exact pop_back_WF hmid

theorem eraseOne_capacity [Inhabited α] (cs : Nat) (v : chunk_vector α)
    (p : Nat) : capacity cs (eraseOne v p).1 = capacity cs v := by
  show capacity cs (pop_back ⟨v.m_chunks,
    moveSlots v.store p (p + 1) (v.m_size - (p + 1)), v.m_size⟩)
    = capacity cs v
  rw [pop_back_capacity]
  rfl

theorem copyCtor_WF [Inhabited α] {cs : Nat} (hcs : 0 < cs)
    (src : chunk_vector α) (ctr : Nat) : WF cs (copyCtor cs src ctr).1 := by
  have h := appendAll_spec hcs (elems src) ⟨[], [], 0⟩ ctr ⟨by simp, by simp⟩
  exact h.2

theorem copyAssign_WF [Inhabited α] {cs : Nat} (hcs : 0 < cs)
    {dest : chunk_vector α} (ctr : Nat) (src : chunk_vector α) (self : Bool)
    (hwfd : WF cs dest) : WF cs (copyAssign cs dest ctr src self).1 := by
  rw [copyAssign]
  split
  · exact hwfd
  · exact (appendAll_spec hcs (elems src) (clear dest) ctr
      (clear_WF hwfd)).2

theorem copyAssign_capacity [Inhabited α] (cs : Nat) (dest : chunk_vector α)
    (ctr : Nat) (src : chunk_vector α) (self : Bool) :
    capacity cs dest ≤ capacity cs (copyAssign cs dest ctr src self).1 := by
  rw [copyAssign]
  split
  · exact Nat.le_refl _
  · exact appendAll_capacity (elems src) (clear dest) ctr

/-- Every reachable container state satisfies the storage accounting
invariant. -/
theorem reachable_WF [Inhabited α] {cs : Nat} (hcs : 0 < cs)
    {v : chunk_vector α} (hr : Reachable cs v) : WF cs v := by
  induction hr with
  | empty => exact ⟨by simp, by simp⟩
  | pushStep v ctr x hr ih => exact push_back_WF hcs ih ctr x
  | emplaceStep v ctr x hr ih => exact push_back_WF hcs ih ctr x
  | popStep v hr ih => exact pop_back_WF ih
  | clearStep v hr ih => exact clear_WF ih
  | eraseStep v p hr ih => exact eraseOne_WF p ih
  | copyCtorStep src ctr hr ih => exact copyCtor_WF hcs src ctr
  | copyAssignStep dest ctr src self hrd hrs ihd ihs =>
    exact copyAssign_WF hcs ctr src self ihd
  | moveAssignDest dest src hrd hrs ihd ihs => exact ⟨ihs.1, ihs.2⟩
  | moveAssignSrc dest src hrd hrs ihd ihs =>
    refine ⟨?_, ?_⟩ <;> simp [moveAssignEq]

/-- C6 counterexample: the claim says capacity() never decreases across any
operation other than move-from, destruction, or allocator-incompatible
reassignment.  But move assignment with EQUAL allocators (the directory
adoption path, in none of those exception categories — the destination is
not moved from, not destroyed, and the allocators are compatible) replaces
the destination's directory by the source's: move-assigning a one-chunk
container into a two-chunk container (ChunkSize 4) drops the destination's
capacity from 8 to 4. -/
theorem capacity_decrease_counterexample :
    capacity 4 (moveAssignEq
        (⟨[0, 1], [0, 0, 0, 0, 0, 0, 0, 0], 0⟩ : chunk_vector Nat)
        ⟨[2], [9, 0, 0, 0], 1⟩).1 <
      capacity 4
        (⟨[0, 1], [0, 0, 0, 0, 0, 0, 0, 0], 0⟩ : chunk_vector Nat) := by
  decide

/-- C6 (amended): at every reachable state, capacity() equals the number of
directory entries times ChunkSize (with the flattened chunk storage covering
exactly that many slots) and size() ≤ capacity(); an append allocates and
appends exactly one new chunk when size() == capacity() before the append
and allocates nothing otherwise, leaving all previously stored chunk
addresses unchanged; and capacity() never decreases across an append, pop,
clear, erase, or copy assignment — it may decrease only across move-from,
destruction, allocator-incompatible reassignment, or (the amendment forced
by the counterexample) a move assignment that adopts the directory of a
source with smaller capacity. -/
theorem growth_policy_invariant {α : Type} [Inhabited α] (cs : Nat)
    (v w : chunk_vector α) (ctr c2 p : Nat) (x : α) (self : Bool)
    (hcs : 0 < cs) (hr : Reachable cs v) :
    (capacity cs v = v.m_chunks.length * cs ∧
     v.store.length = v.m_chunks.length * cs ∧
     size v ≤ capacity cs v) ∧
    ((push_back cs v ctr x).1.m_chunks =
      if size v = capacity cs v then v.m_chunks ++ [ctr]
      else v.m_chunks) ∧
    capacity cs v ≤ capacity cs (push_back cs v ctr x).1 ∧
    capacity cs (pop_back v) = capacity cs v ∧
    capacity cs (clear v) = capacity cs v ∧
    capacity cs (eraseOne v p).1 = capacity cs v ∧
    capacity cs v ≤ capacity cs (copyAssign cs v c2 w self).1 := by
  have hwf := reachable_WF hcs hr
  refine ⟨⟨rfl, hwf.1, ?_⟩, push_back_dir v ctr x,
    push_back_capacity v ctr x, pop_back_capacity cs v, rfl,
    eraseOne_capacity cs v p, copyAssign_capacity cs v c2 w self⟩
  show v.m_size ≤ v.m_chunks.length * cs
  have h1 := hwf.1
  have h2 := hwf.2
  omega

/-- Witness for the amended growth-policy theorem: the default-constructed
container (reachable by construction), appending 7 with counter 6,
copy-assigning from a one-element container. -/
theorem growth_policy_invariant_witness :
    (capacity 4 (⟨[], [], 0⟩ : chunk_vector Nat) =
        (⟨[], [], 0⟩ : chunk_vector Nat).m_chunks.length * 4 ∧
      (⟨[], [], 0⟩ : chunk_vector Nat).store.length =
        (⟨[], [], 0⟩ : chunk_vector Nat).m_chunks.length * 4 ∧
      size (⟨[], [], 0⟩ : chunk_vector Nat) ≤
        capacity 4 (⟨[], [], 0⟩ : chunk_vector Nat)) ∧
    ((push_back 4 (⟨[], [], 0⟩ : chunk_vector Nat) 6 7).1.m_chunks =
      if size (⟨[], [], 0⟩ : chunk_vector Nat) =
          capacity 4 (⟨[], [], 0⟩ : chunk_vector Nat)
      then (⟨[], [], 0⟩ : chunk_vector Nat).m_chunks ++ [6]
      else (⟨[], [], 0⟩ : chunk_vector Nat).m_chunks) ∧
    capacity 4 (⟨[], [], 0⟩ : chunk_vector Nat) ≤
      capacity 4 (push_back 4 (⟨[], [], 0⟩ : chunk_vector Nat) 6 7).1 ∧
    capacity 4 (pop_back (⟨[], [], 0⟩ : chunk_vector Nat)) =
      capacity 4 (⟨[], [], 0⟩ : chunk_vector Nat) ∧
    capacity 4 (clear (⟨[], [], 0⟩ : chunk_vector Nat)) =
      capacity 4 (⟨[], [], 0⟩ : chunk_vector Nat) ∧
    capacity 4 (eraseOne (⟨[], [], 0⟩ : chunk_vector Nat) 0).1 =
      capacity 4 (⟨[], [], 0⟩ : chunk_vector Nat) ∧
    capacity 4 (⟨[], [], 0⟩ : chunk_vector Nat) ≤
      capacity 4 (copyAssign 4 (⟨[], [], 0⟩ : chunk_vector Nat) 8
        (⟨[2], [9, 0, 0, 0], 1⟩ : chunk_vector Nat) false).1 :=
  growth_policy_invariant 4 ⟨[], [], 0⟩ ⟨[2], [9, 0, 0, 0], 1⟩ 6 8 0 7 false
    (by decide) Reachable.empty

end myr
